import Mathlib

/-! Contextual glyph selection for Perso-Arabic text (package gofarsi)

A shallow embedding of `internal/gofarsi/stringutils.go`.

Conventions of the embedding:

* a Go `rune` (an `int32`) is an `Int`; the code only compares runes, it never
  computes with them, so no wrap-around can occur;
* a Go `string` is represented by its sequence of runes, that is by the slice
  `[]rune(s)`, a sequence of Unicode scalar values (`IsString`);
* the conversion `string(r)` of a rune slice `r` puts U+FFFD for every rune that is no
  Unicode scalar value (`stringOf`); `ToGlyph`, whose slice holds runes of the table,
  carries it, while in `Reverse` and the `Remove` functions every rune of the slice is
  a rune of the argument string, on which the conversion changes nothing;
* the package-level tables `alphabet` and `beggining_after` are declared in
  another file of the package, so every function that reads them takes them
  as explicit arguments;
* an indexing expression `runes[k]` of Go, which stops the program when `k` is
  out of range, is a lookup in the `Option` monad; in `ToGlyph` the index is the `int`
  the code computes (`index`), so that a read at `-1` fails.
-/

namespace Gofarsi

/-- A Go rune. -/
abbrev Rune := Int

/-- Modelled from the spec: the declaration of the type `Harf` lies outside
`stringutils.go`; its five rune fields are the ones read by `Harf.equals` and
written by `getHarf`, and the spec's Letter has the same five attributes
(base, isolated, initial, medial, final). -/
structure Harf where
  Unicode : Rune
  Isolated : Rune
  Beggining : Rune
  Medium : Rune
  Final : Rune
  deriving DecidableEq, Repr

/-- The method `(c *Harf) equals(char rune) bool`: a `switch` on `char` whose
cases are tried from top to bottom. -/
def Harf.equals (c : Harf) (char : Rune) : Bool :=
  if char = c.Unicode then true
  else if char = c.Beggining then true
  else if char = c.Isolated then true
  else if char = c.Medium then true
  else if char = c.Final then true
  else false

/-- The function `getHarf`: the first entry of `alphabet` that `equals` the rune, and
otherwise the composite literal `Harf{Unicode: char, Isolated: char, Medium: char,
Final: char}`, whose field `Beggining` keeps the zero value. -/
def getHarf (alphabet : List Harf) (char : Rune) : Harf :=
  match alphabet with
  | [] => { Unicode := char, Isolated := char, Beggining := 0, Medium := char, Final := char }
  | s :: rest => if s.equals char then s else getHarf rest char

/-- The first loop of `getCharGlyph`: it runs over the whole of `alphabet` and raises
the flags `previousIn` and `nextIn`. -/
def getCharGlyph.flags (alphabet : List Harf) (previousChar nextChar : Rune) : Bool × Bool :=
  alphabet.foldl
    (fun st s =>
      let previousIn := if s.equals previousChar then true else st.1
      let nextIn := if s.equals nextChar then true else st.2
      (previousIn, nextIn))
    (false, false)

/-- The inner loop `for s := range beggining_after { if s.equals(previousChar) { return .. } }`
of `getCharGlyph`: `true` when the loop leaves through its `return`. The keys of the Go
map are given as a list; the loop's outcome does not depend on the order of the keys. -/
def getCharGlyph.blocked (beggining_after : List Harf) (previousChar : Rune) : Bool :=
  match beggining_after with
  | [] => false
  | s :: rest => if s.equals previousChar then true else getCharGlyph.blocked rest previousChar

/-- The second loop of `getCharGlyph`, over the entries of `alphabet` still to visit. -/
def getCharGlyph.select (alphabet beggining_after : List Harf) (previousIn nextIn : Bool)
    (previousChar currentChar : Rune) : List Harf → Rune
  | [] => currentChar
  | s :: rest =>
    if !s.equals currentChar then
      getCharGlyph.select alphabet beggining_after previousIn nextIn previousChar currentChar rest
    else if previousIn && nextIn then
      if getCharGlyph.blocked beggining_after previousChar then
        (getHarf alphabet currentChar).Beggining
      else (getHarf alphabet currentChar).Medium
    else if nextIn then (getHarf alphabet currentChar).Beggining
    else if previousIn then
      if getCharGlyph.blocked beggining_after previousChar then
        (getHarf alphabet currentChar).Isolated
      else (getHarf alphabet currentChar).Final
    else if !previousIn && !nextIn then (getHarf alphabet currentChar).Isolated
    else
      getCharGlyph.select alphabet beggining_after previousIn nextIn previousChar currentChar rest

/-- The function `getCharGlyph`. -/
def getCharGlyph (alphabet beggining_after : List Harf)
    (previousChar currentChar nextChar : Rune) : Rune :=
  let fl := getCharGlyph.flags alphabet previousChar nextChar
  getCharGlyph.select alphabet beggining_after fl.1 fl.2 previousChar currentChar alphabet

/-- An indexing expression `runes[k]` of Go whose index `k` is computed on `int`s: the
program stops, here `none`, when `k` is negative or not below the length. -/
def index (runes : List Rune) (k : Int) : Option Rune :=
  if k < 0 then none else runes[k.toNat]?

/-- A Unicode scalar value: a code point up to U+10FFFF that is no surrogate
(U+D800 to U+DFFF). -/
def IsScalar (r : Rune) : Prop :=
  (0 ≤ r ∧ r < 55296) ∨ (57343 < r ∧ r ≤ 1114111)

instance (r : Rune) : Decidable (IsScalar r) := by
  unfold IsScalar; infer_instance

/-- What the conversion `string(r)` of a rune slice makes of one rune: a Unicode scalar
value is kept, any other rune becomes U+FFFD. -/
def toScalar (r : Rune) : Rune :=
  if IsScalar r then r else 65533

/-- The rune sequence of the Go string `string(r)`, for a rune slice `r`. -/
def stringOf (r : List Rune) : List Rune :=
  r.map toScalar

/-- The body of the loop `for i, current := range runes` of `ToGlyph`, started at index
`i` with `todo` the elements of `runes` from index `i` on and `newText` the output built
so far. The comparisons and the indices `i-1`, `i+1` are Go `int`s, hence in `Int`. -/
def ToGlyph.loop (alphabet beggining_after : List Harf) (runes : List Rune) (length : Nat) :
    Nat → List Rune → List Rune → Option (List Rune)
  | _, [], newText => some newText
  | i, current :: todo, newText =>
    (if (i : Int) - 1 < 0 then some 0 else index runes ((i : Int) - 1)).bind fun prev =>
    (if (i : Int) + 1 ≤ (length : Int) - 1 then index runes ((i : Int) + 1)
      else some 0).bind fun next =>
    let glyph := getCharGlyph alphabet beggining_after prev current next
    ToGlyph.loop alphabet beggining_after runes length (i + 1) todo (newText ++ [glyph])

/-- The slice `newText` of `ToGlyph` when its loop is over, for `runes := []rune(text)`;
`none` stands for an index out of range. -/
def ToGlyph.newText (alphabet beggining_after : List Harf) (runes : List Rune) :
    Option (List Rune) :=
  ToGlyph.loop alphabet beggining_after runes runes.length 0 runes []

/-- The function `ToGlyph`, from the rune sequence of its argument to the rune sequence of
the string `string(newText)` it returns. -/
def ToGlyph (alphabet beggining_after : List Harf) (text : List Rune) : Option (List Rune) :=
  (ToGlyph.newText alphabet beggining_after text).map stringOf

/-! ## Diacritics, elongation and filtering

The map `tashkeel` (of type `map[rune]bool`) is given by its lookup function, which is
`false` on the keys the map does not have; the letter `TATWEEL` is an argument. -/

/-- The loop of `SmartLength`, with the counter `length`. -/
def SmartLength.loop (tashkeel : Rune → Bool) : List Rune → Nat → Nat
  | [], length => length
  | value :: rest, length =>
    if tashkeel value then SmartLength.loop tashkeel rest length
    else SmartLength.loop tashkeel rest (length + 1)

/-- The function `SmartLength`. -/
def SmartLength (tashkeel : Rune → Bool) (s : List Rune) : Nat :=
  SmartLength.loop tashkeel s 0

/-- The loop of `RemoveTashkeel`, with the slice `r` built so far. -/
def RemoveTashkeel.loop (tashkeel : Rune → Bool) : List Rune → List Rune → List Rune
  | [], r => r
  | value :: rest, r =>
    if tashkeel value then RemoveTashkeel.loop tashkeel rest r
    else RemoveTashkeel.loop tashkeel rest (r ++ [value])

/-- The function `RemoveTashkeel`. -/
def RemoveTashkeel (tashkeel : Rune → Bool) (s : List Rune) : List Rune :=
  RemoveTashkeel.loop tashkeel s []

/-- The loop of `RemoveTatweel`, with the slice `r` built so far. -/
def RemoveTatweel.loop (TATWEEL : Harf) : List Rune → List Rune → List Rune
  | [], r => r
  | value :: rest, r =>
    if TATWEEL.equals value then RemoveTatweel.loop TATWEEL rest r
    else RemoveTatweel.loop TATWEEL rest (r ++ [value])

/-- The function `RemoveTatweel`. -/
def RemoveTatweel (TATWEEL : Harf) (s : List Rune) : List Rune :=
  RemoveTatweel.loop TATWEEL s []

/-- The inner loop of `RemoveAllNonFarsiChars`: it runs over the whole of `alphabet` and
raises the flag `inAlphabet`. -/
def RemoveAllNonFarsiChars.inAlphabet (alphabet : List Harf) (current : Rune) : Bool :=
  alphabet.foldl (fun inAlphabet s => if s.equals current then true else inAlphabet) false

/-- The outer loop of `RemoveAllNonFarsiChars`, with the slice `newText` built so far. -/
def RemoveAllNonFarsiChars.loop (alphabet : List Harf) : List Rune → List Rune → List Rune
  | [], newText => newText
  | current :: rest, newText =>
    if RemoveAllNonFarsiChars.inAlphabet alphabet current then
      RemoveAllNonFarsiChars.loop alphabet rest (newText ++ [current])
    else RemoveAllNonFarsiChars.loop alphabet rest newText

/-- The function `RemoveAllNonFarsiChars`. -/
def RemoveAllNonFarsiChars (alphabet : List Harf) (text : List Rune) : List Rune :=
  RemoveAllNonFarsiChars.loop alphabet text []

/-! ## Reversal of the embedded Latin and numeric runs -/

/-- One turn of the loop of `Reverse`, at index `i` with the state `(j, r)`: the
exchange `r[i], r[j] = r[j], r[i]` followed by `j-1`. -/
def Reverse.step (st : Int × List Rune) (i : Nat) : Option (Int × List Rune) :=
  if st.1 < 0 then none
  else do
    let ri ← st.2[i]?
    let rj ← st.2[st.1.toNat]?
    some (st.1 - 1, (st.2.set i rj).set st.1.toNat ri)

/-- The function `Reverse`: the loop `for i, j := 0, len(r)-1; i < len(r)/2; i, j = i+1, j-1`
runs `i` through `0, .., len(r)/2 - 1`, the exchanges leaving `len(r)` as it is. -/
def Reverse (s : List Rune) : Option (List Rune) :=
  ((List.range (s.length / 2)).foldlM Reverse.step ((s.length : Int) - 1, s)).map Prod.snd

/-- The character class `[a-zA-Z0-9,\.]` of the regular expression. -/
def isForeign (c : Rune) : Bool :=
  (97 ≤ c && c ≤ 122) || (65 ≤ c && c ≤ 90) || (48 ≤ c && c ≤ 57) || c == 44 || c == 46

/-- The library call `re.FindAllString(input, -1)` for the expression `[a-zA-Z0-9,\.]+`:
the successive non-overlapping matches from left to right, each one a maximal run of
characters of the class, the iteration `+` being greedy. The second argument is the run
being read. -/
def FindAllString : List Rune → List Rune → List (List Rune)
  | [], run => if run = [] then [] else [run]
  | c :: rest, run =>
    if isForeign c then FindAllString rest (run ++ [c])
    else if run = [] then FindAllString rest []
    else run :: FindAllString rest []

/-- The assignment `matchMap[match] = reversed` on a map given by the list of its
entries: a key already present keeps its place and gets the new value. -/
def mapAssign (m : List (List Rune × List Rune)) (k v : List Rune) :
    List (List Rune × List Rune) :=
  if m.any (fun e => e.1 = k) then m.map (fun e => if e.1 = k then (k, v) else e)
  else m ++ [(k, v)]

/-- The loop `for _, match := range matches` that fills `matchMap`. -/
def fillMatchMap : List (List Rune) → List (List Rune × List Rune) →
    Option (List (List Rune × List Rune))
  | [], m => some m
  | mtch :: rest, m => do
    let reversed ← Reverse mtch
    fillMatchMap rest (mapAssign m mtch reversed)

/-- The scan of `strings.Replace(s, old, new, -1)` for a non-empty `old`: `skip` counts
the characters of the occurrence just replaced that are still to be passed over. -/
def Replace.scan (old new : List Rune) : Nat → List Rune → List Rune
  | _, [] => []
  | skip + 1, _ :: rest => Replace.scan old new skip rest
  | 0, c :: rest =>
    if old.isPrefixOf (c :: rest) then new ++ Replace.scan old new (old.length - 1) rest
    else c :: Replace.scan old new 0 rest

/-- The library call `strings.Replace(s, old, new, -1)`: every non-overlapping occurrence of
`old`, found from left to right, is replaced by `new`; an empty `old` matches before every
character and at the end. -/
def Replace (s old new : List Rune) : List Rune :=
  if old = new then s
  else if old = [] then new ++ (s.map (fun c => c :: new)).flatten
  else Replace.scan old new 0 s

/-- The loop `for match, reversed := range matchMap`, the entries being visited in the
order `order`. -/
def replaceLoop (order : List (List Rune × List Rune)) (input : List Rune) : List Rune :=
  order.foldl (fun inp e => Replace inp e.1 e.2) input

/-- An iteration order of Go maps: what `range` makes of the entries of a map. The
language leaves the order open, so the code is read with the order as an argument. -/
abbrev RangeOrder := List (List Rune × List Rune) → List (List Rune × List Rune)

/-- A range order visits every entry of the map exactly once. -/
def RangeOrder.Valid (range : RangeOrder) : Prop :=
  ∀ m, (range m).Perm m

/-- The function `ReverseNumbersAndEnglishAlphabet`, the `range` over `matchMap` taking the
entries in the order `range`. -/
def ReverseNumbersAndEnglishAlphabet (range : RangeOrder) (input : List Rune) :
    Option (List Rune) := do
  let mtches := FindAllString input []
  let matchMap ← fillMatchMap mtches []
  some (replaceLoop (range matchMap) input)

/-- The result the specification asks of `ReverseNumbersAndEnglishAlphabet`: every maximal
run of characters of the class is replaced, at its own position, by its reversal, and every
other character stays. The second argument is the run being read. -/
def reverseRunsInPlace : List Rune → List Rune → List Rune
  | [], run => run.reverse
  | c :: rest, run =>
    if isForeign c then reverseRunsInPlace rest (run ++ [c])
    else run.reverse ++ c :: reverseRunsInPlace rest []

/-! ## Vocabulary of the specification -/

/-- A rune classifies when some entry of the table has it as its Unicode, Beggining,
Isolated, Medium or Final field. -/
def Classifies (alphabet : List Harf) (c : Rune) : Prop :=
  ∃ s ∈ alphabet,
    c = s.Unicode ∨ c = s.Beggining ∨ c = s.Isolated ∨ c = s.Medium ∨ c = s.Final

instance (alphabet : List Harf) (c : Rune) : Decidable (Classifies alphabet c) := by
  unfold Classifies; infer_instance

/-- The five form fields of an entry. -/
def Harf.forms (s : Harf) : List Rune :=
  [s.Unicode, s.Beggining, s.Isolated, s.Medium, s.Final]

/-- The no-collision invariant of a table: no code point is a form field of two
different entries. -/
def NoCollision (alphabet : List Harf) : Prop :=
  ∀ s ∈ alphabet, ∀ t ∈ alphabet, (∃ c ∈ s.forms, c ∈ t.forms) → s = t

instance (alphabet : List Harf) : Decidable (NoCollision alphabet) := by
  unfold NoCollision; infer_instance

/-- The rune sequence of a Go string: every rune is a Unicode scalar value, as the
conversion `[]rune(text)` yields them. -/
def IsString (s : List Rune) : Prop :=
  ∀ c ∈ s, IsScalar c

instance (s : List Rune) : Decidable (IsString s) := by
  unfold IsString; infer_instance

/-- The four presentation forms of every entry of the table are Unicode scalar values. -/
def ScalarGlyphs (alphabet : List Harf) : Prop :=
  ∀ s ∈ alphabet,
    IsScalar s.Isolated ∧ IsScalar s.Beggining ∧ IsScalar s.Medium ∧ IsScalar s.Final

instance (alphabet : List Harf) : Decidable (ScalarGlyphs alphabet) := by
  unfold ScalarGlyphs; infer_instance

/-- A table without collisions whose first letter has the surrogate code points U+D802 and
U+D801 as its isolated and initial forms. -/
def surrogateAlphabet : List Harf :=
  [ { Unicode := 10, Isolated := 55298, Beggining := 55297, Medium := 13, Final := 14 },
    { Unicode := 20, Isolated := 21, Beggining := 22, Medium := 23, Final := 24 } ]

/-- The non-connecting-after set used with `surrogateAlphabet`: its second letter. -/
def surrogateAfter : List Harf :=
  [ { Unicode := 20, Isolated := 21, Beggining := 22, Medium := 23, Final := 24 } ]

/-- The glyph the second loop returns from its first matching entry. -/
def chosen (alphabet after : List Harf) (previousIn nextIn : Bool) (p c : Rune) : Rune :=
  if previousIn && nextIn then
    if getCharGlyph.blocked after p then (getHarf alphabet c).Beggining
    else (getHarf alphabet c).Medium
  else if nextIn then (getHarf alphabet c).Beggining
  else if previousIn then
    if getCharGlyph.blocked after p then (getHarf alphabet c).Isolated
    else (getHarf alphabet c).Final
  else (getHarf alphabet c).Isolated

/-- The glyph at index `i` of the shaped text, from the window around index `i`. -/
def window (alphabet after : List Harf) (text : List Rune) (i : Nat) : Rune :=
  getCharGlyph alphabet after
    (if i = 0 then 0 else text[i - 1]?.getD 0)
    (text[i]?.getD 0)
    (if i + 1 < text.length then text[i + 1]?.getD 0 else 0)

/-- Modelled from the spec: the constant `TATWEEL` is declared outside `stringutils.go`.
The spec's elongation character is a single designated code point, so the letter holds
that code point `t` in each of its five fields. -/
def tatweelOf (t : Rune) : Harf :=
  { Unicode := t, Isolated := t, Beggining := t, Medium := t, Final := t }

/-- The slice of `Reverse` after `k` turns of its loop: the first `k` and the last `k`
places hold the mirrored runes of `r`, the places in between are as in `r`. -/
def swapped (r : List Rune) (k : Nat) : List Rune :=
  (List.range r.length).map fun i =>
    if i < k ∨ r.length - k ≤ i then r[r.length - 1 - i]?.getD 0 else r[i]?.getD 0

/-- What a character shows of itself outside the foreign runs: a character of the class
`[A-Za-z0-9,.]` shows only that it is one, any other character shows itself. -/
def mask (c : Rune) : Option Rune :=
  if isForeign c then none else some c

/-- Two runes stand for the same letter of the table, or are one rune. -/
def SameLetter (alphabet : List Harf) (x y : Rune) : Prop :=
  x = y ∨ (Classifies alphabet x ∧ Classifies alphabet y ∧ getHarf alphabet x = getHarf alphabet y)

/-- A small table used to evaluate the code: two letters with pairwise different forms. -/
def demoAlphabet : List Harf :=
  [ { Unicode := 10, Isolated := 11, Beggining := 12, Medium := 13, Final := 14 },
    { Unicode := 20, Isolated := 21, Beggining := 22, Medium := 23, Final := 24 } ]

/-- The non-connecting-after set used with `demoAlphabet`: its first letter. -/
def demoAfter : List Harf :=
  [ { Unicode := 10, Isolated := 11, Beggining := 12, Medium := 13, Final := 14 } ]

end Gofarsi

namespace Gofarsi

/-! ## The classifier -/

theorem Harf.equals_iff (s : Harf) (c : Rune) :
    s.equals c = true ↔
      (c = s.Unicode ∨ c = s.Beggining ∨ c = s.Isolated ∨ c = s.Medium ∨ c = s.Final) := by
  unfold Harf.equals
  by_cases h1 : c = s.Unicode
  · simp [h1]
  by_cases h2 : c = s.Beggining
  · simp [h2]
  by_cases h3 : c = s.Isolated
  · simp [h3]
  by_cases h4 : c = s.Medium
  · simp [h4]
  by_cases h5 : c = s.Final
  · simp [h5]
  simp [h1, h2, h3, h4, h5]

theorem classifies_iff_equals (alphabet : List Harf) (c : Rune) :
    Classifies alphabet c ↔ ∃ s ∈ alphabet, s.equals c = true := by
  unfold Classifies
  constructor
  · rintro ⟨s, hs, h⟩
    exact ⟨s, hs, (Harf.equals_iff s c).2 h⟩
  · rintro ⟨s, hs, h⟩
    exact ⟨s, hs, (Harf.equals_iff s c).1 h⟩

theorem classifies_cons (s : Harf) (rest : List Harf) (c : Rune) :
    Classifies (s :: rest) c ↔ (s.equals c = true ∨ Classifies rest c) := by
  simp [classifies_iff_equals]

theorem not_classifies_nil (c : Rune) : ¬ Classifies [] c := by
  simp [Classifies]

theorem forms_iff_equals (s : Harf) (c : Rune) : c ∈ s.forms ↔ s.equals c = true := by
  rw [Harf.equals_iff]
  simp [Harf.forms]

/-- Under the no-collision invariant two entries that recognise one rune are equal. -/
theorem NoCollision.eq_of_equals {alphabet : List Harf} (hnc : NoCollision alphabet)
    {s t : Harf} (hs : s ∈ alphabet) (ht : t ∈ alphabet) {c : Rune}
    (h1 : s.equals c = true) (h2 : t.equals c = true) : s = t :=
  hnc s hs t ht ⟨c, (forms_iff_equals s c).2 h1, (forms_iff_equals t c).2 h2⟩

theorem getHarf_mem_equals (alphabet : List Harf) (c : Rune) (h : Classifies alphabet c) :
    getHarf alphabet c ∈ alphabet ∧ (getHarf alphabet c).equals c = true := by
  induction alphabet with
  | nil => exact absurd h (not_classifies_nil c)
  | cons s rest ih =>
    unfold getHarf
    by_cases hs : s.equals c = true
    · simp [hs]
    · have hr : Classifies rest c := by
        rcases (classifies_cons s rest c).1 h with h1 | h1
        · exact absurd h1 hs
        · exact h1
      have := ih hr
      simp only [hs, if_false, Bool.false_eq_true]
      exact ⟨List.mem_cons_of_mem _ this.1, this.2⟩

theorem getHarf_eq_of_equals {alphabet : List Harf} (hnc : NoCollision alphabet)
    {s : Harf} (hs : s ∈ alphabet) {c : Rune} (h : s.equals c = true) :
    getHarf alphabet c = s := by
  have hc : Classifies alphabet c := (classifies_iff_equals alphabet c).2 ⟨s, hs, h⟩
  have := getHarf_mem_equals alphabet c hc
  exact hnc.eq_of_equals this.1 hs this.2 h

/-! ## The neighbour rule -/

theorem flags_foldl (alphabet : List Harf) (p n : Rune) (a b : Bool) :
    alphabet.foldl
      (fun st s =>
        let previousIn := if s.equals p then true else st.1
        let nextIn := if s.equals n then true else st.2
        (previousIn, nextIn))
      (a, b)
      = (a || decide (Classifies alphabet p), b || decide (Classifies alphabet n)) := by
  induction alphabet generalizing a b with
  | nil => simp [not_classifies_nil]
  | cons s rest ih =>
    rw [List.foldl_cons, ih]
    by_cases h1 : s.equals p = true <;> by_cases h2 : s.equals n = true <;>
      simp [h1, h2, classifies_cons]

theorem flags_eq (alphabet : List Harf) (p n : Rune) :
    getCharGlyph.flags alphabet p n
      = (decide (Classifies alphabet p), decide (Classifies alphabet n)) := by
  unfold getCharGlyph.flags
  rw [flags_foldl]
  simp

theorem blocked_iff (after : List Harf) (p : Rune) :
    getCharGlyph.blocked after p = true ↔ ∃ s ∈ after, s.equals p = true := by
  induction after with
  | nil => simp [getCharGlyph.blocked]
  | cons s rest ih =>
    unfold getCharGlyph.blocked
    by_cases h : s.equals p = true
    · simp [h]
    · simp [h, ih]

theorem select_eq (alphabet after : List Harf) (pin nin : Bool) (p c : Rune)
    (todo : List Harf) :
    getCharGlyph.select alphabet after pin nin p c todo
      = if Classifies todo c then chosen alphabet after pin nin p c else c := by
  induction todo with
  | nil => simp [getCharGlyph.select, not_classifies_nil]
  | cons s rest ih =>
    unfold getCharGlyph.select
    by_cases hs : s.equals c = true
    · have : Classifies (s :: rest) c := (classifies_cons s rest c).2 (Or.inl hs)
      cases pin <;> cases nin <;> simp [hs, this, chosen]
    · have hiff : Classifies (s :: rest) c ↔ Classifies rest c := by
        rw [classifies_cons]; simp [hs]
      simp only [hs, Bool.not_false, if_true, ih, hiff]

theorem getCharGlyph_eq (alphabet after : List Harf) (p c n : Rune) :
    getCharGlyph alphabet after p c n
      = if Classifies alphabet c then
          chosen alphabet after (decide (Classifies alphabet p)) (decide (Classifies alphabet n)) p c
        else c := by
  unfold getCharGlyph
  simp only [flags_eq, select_eq]

/-! ## The sequence shaper -/

theorem index_pred (runes : List Rune) (i : Nat) (h0 : i ≠ 0) :
    index runes ((i : Int) - 1) = runes[i - 1]? := by
  have h1 : ¬ ((i : Int) - 1 < 0) := by omega
  have h2 : ((i : Int) - 1).toNat = i - 1 := by omega
  rw [index, if_neg h1, h2]

theorem index_succ (runes : List Rune) (i : Nat) :
    index runes ((i : Int) + 1) = runes[i + 1]? := by
  have h1 : ¬ ((i : Int) + 1 < 0) := by omega
  have h2 : ((i : Int) + 1).toNat = i + 1 := by omega
  rw [index, if_neg h1, h2]

theorem toScalar_of_scalar {r : Rune} (h : IsScalar r) : toScalar r = r := by
  rw [toScalar, if_pos h]

theorem stringOf_of_string {s : List Rune} (h : IsString s) : stringOf s = s := by
  induction s with
  | nil => rfl
  | cons c s ih =>
    rw [stringOf, List.map_cons, toScalar_of_scalar (h c (List.mem_cons_self _ _))]
    congr 1
    exact ih (fun d hd => h d (List.mem_cons_of_mem _ hd))

theorem ToGlyph_loop_eq (alphabet after : List Harf) (text : List Rune) :
    ∀ (todo : List Rune) (i : Nat) (acc : List Rune), text.drop i = todo →
      ToGlyph.loop alphabet after text text.length i todo acc
        = some (acc ++ (List.range' i todo.length).map (window alphabet after text)) := by
  intro todo
  induction todo with
  | nil => intro i acc _; simp [ToGlyph.loop]
  | cons current todo ih =>
    intro i acc hdrop
    have hlt : i < text.length := by
      by_contra hge
      rw [List.drop_of_length_le (by omega)] at hdrop
      exact absurd hdrop (by simp)
    have hcur : text[i]? = some current := by
      have := congrArg List.head? hdrop
      simpa [List.head?_drop] using this
    have hrest : text.drop (i + 1) = todo := by
      have := congrArg List.tail hdrop
      simpa [List.tail_drop] using this
    have hprev : (if (i : Int) - 1 < 0 then some (0 : Rune) else index text ((i : Int) - 1))
        = some (if i = 0 then 0 else text[i - 1]?.getD 0) := by
      by_cases h0 : i = 0
      · simp [h0]
      · have h1 : ¬ ((i : Int) - 1 < 0) := by omega
        have h2 : i - 1 < text.length := by omega
        rw [if_neg h1, if_neg h0, index_pred text i h0, List.getElem?_eq_getElem h2]
        rfl
    have hnext : (if (i : Int) + 1 ≤ (text.length : Int) - 1 then index text ((i : Int) + 1)
          else some (0 : Rune))
        = some (if i + 1 < text.length then text[i + 1]?.getD 0 else 0) := by
      by_cases h0 : i + 1 < text.length
      · have h1 : (i : Int) + 1 ≤ (text.length : Int) - 1 := by omega
        rw [if_pos h1, if_pos h0, index_succ, List.getElem?_eq_getElem h0]
        rfl
      · have h1 : ¬ ((i : Int) + 1 ≤ (text.length : Int) - 1) := by omega
        rw [if_neg h1, if_neg h0]
    unfold ToGlyph.loop
    rw [hprev, hnext]
    simp only [Option.some_bind]
    rw [ih (i + 1) _ hrest]
    simp [List.range'_succ, window, hcur]

theorem ToGlyph_newText_eq (alphabet after : List Harf) (text : List Rune) :
    ToGlyph.newText alphabet after text
      = some ((List.range text.length).map (window alphabet after text)) := by
  unfold ToGlyph.newText
  rw [ToGlyph_loop_eq alphabet after text text 0 [] (by simp)]
  simp [List.range_eq_range']

theorem ToGlyph_eq (alphabet after : List Harf) (text : List Rune) :
    ToGlyph alphabet after text
      = some (stringOf ((List.range text.length).map (window alphabet after text))) := by
  unfold ToGlyph
  rw [ToGlyph_newText_eq]
  rfl

theorem blocked_iff_mem {alphabet after : List Harf} (hnc : NoCollision alphabet)
    (hsub : ∀ s ∈ after, s ∈ alphabet) {p : Rune} (hp : Classifies alphabet p) :
    getCharGlyph.blocked after p = true ↔ getHarf alphabet p ∈ after := by
  rw [blocked_iff]
  constructor
  · rintro ⟨s, hs, he⟩
    rw [getHarf_eq_of_equals hnc (hsub s hs) he]
    exact hs
  · intro h
    exact ⟨_, h, (getHarf_mem_equals alphabet p hp).2⟩

theorem window_eq (alphabet after : List Harf) (text : List Rune) (i : Nat)
    (hi : i < text.length) :
    window alphabet after text i
      = getCharGlyph alphabet after
          (if h : 0 < i then text[i - 1] else 0)
          text[i]
          (if h : i < text.length - 1 then text[i + 1] else 0) := by
  unfold window
  have h1 : (if i = 0 then (0 : Rune) else text[i - 1]?.getD 0)
      = (if h : 0 < i then text[i - 1] else 0) := by
    by_cases h0 : i = 0
    · simp [h0]
    · have h2 : i - 1 < text.length := by omega
      have h3 : 0 < i := by omega
      simp [h0, h3, List.getElem?_eq_getElem h2]
  have h2 : (if i + 1 < text.length then text[i + 1]?.getD 0 else (0 : Rune))
      = (if h : i < text.length - 1 then text[i + 1] else 0) := by
    by_cases h0 : i + 1 < text.length
    · have h3 : i < text.length - 1 := by omega
      simp [h0, h3, List.getElem?_eq_getElem h0]
    · have h3 : ¬ i < text.length - 1 := by omega
      simp [h0, h3]
  rw [h1, h2, List.getElem?_eq_getElem hi]
  rfl

/-! ## The claims -/

/-- C1. The neighbour rule of `getCharGlyph`: on a table without collisions whose
non-connecting-after set lies within the table, and for a current rune that classifies as
the letter `L = getHarf cur`, the result is `L.Beggining` when next classifies and prev
either does not classify or has its letter in the set; `L.Medium` when prev and next
classify and the letter of prev is not in the set; `L.Final` when prev classifies, next
does not and the letter of prev is not in the set; `L.Isolated` when neither neighbour
classifies, or only prev does and its letter is in the set. -/
theorem getCharGlyph_neighbour_rule (alphabet after : List Harf)
    (hnc : NoCollision alphabet) (hsub : ∀ s ∈ after, s ∈ alphabet)
    (prev cur next : Rune) (hcur : Classifies alphabet cur) :
    ((Classifies alphabet next ∧
        (¬ Classifies alphabet prev ∨ getHarf alphabet prev ∈ after)) →
      getCharGlyph alphabet after prev cur next = (getHarf alphabet cur).Beggining) ∧
    ((Classifies alphabet prev ∧ Classifies alphabet next ∧
        getHarf alphabet prev ∉ after) →
      getCharGlyph alphabet after prev cur next = (getHarf alphabet cur).Medium) ∧
    ((Classifies alphabet prev ∧ ¬ Classifies alphabet next ∧
        getHarf alphabet prev ∉ after) →
      getCharGlyph alphabet after prev cur next = (getHarf alphabet cur).Final) ∧
    (((¬ Classifies alphabet prev ∧ ¬ Classifies alphabet next) ∨
        (Classifies alphabet prev ∧ ¬ Classifies alphabet next ∧
          getHarf alphabet prev ∈ after)) →
      getCharGlyph alphabet after prev cur next = (getHarf alphabet cur).Isolated) := by
  rw [getCharGlyph_eq, if_pos hcur]
  unfold chosen
  by_cases hp : Classifies alphabet prev
  · have hb := blocked_iff_mem hnc hsub hp
    by_cases hn : Classifies alphabet next <;>
      by_cases hm : getHarf alphabet prev ∈ after <;>
      simp [hp, hn, hm, hb.2, (not_congr hb).2]
  · by_cases hn : Classifies alphabet next <;> simp [hp, hn]

/-- Witness of C1 on `demoAlphabet`: between the non-connecting letter `10` and another
letter, the rune `20` takes its initial form `22`. -/
theorem getCharGlyph_neighbour_rule_witness :
    getCharGlyph demoAlphabet demoAfter 10 20 20 = 22 :=
  (getCharGlyph_neighbour_rule demoAlphabet demoAfter (by decide) (by decide) 10 20 20
    (by decide)).1 ⟨by decide, Or.inr (by decide)⟩

/-- C2. `ToGlyph` preserves the length: for every table and every rune sequence it
returns a sequence with as many runes as its argument. -/
theorem ToGlyph_length (alphabet after : List Harf) (s : List Rune) :
    ∃ out, ToGlyph alphabet after s = some out ∧ out.length = s.length :=
  ⟨_, ToGlyph_eq alphabet after s, by simp [stringOf]⟩

/-- C4, as stated, fails. On `demoAlphabet`, whose letter `10` is in the
non-connecting-after set, all the hypotheses hold for the text `10 20 20`, and its first
rune is shaped to `12`, the initial form of the letter, not to its final form `14`. On
`surrogateAlphabet`, whose letter `20` is in the set, they hold for the text `20 10 20`,
and its second rune is U+FFFD (`65533`), not the initial form `55297` of the letter
of `10`, which is a surrogate. -/
theorem ToGlyph_override_counterexample :
    (NoCollision demoAlphabet ∧ ¬ Classifies demoAlphabet 0 ∧
      Classifies demoAlphabet 10 ∧ Classifies demoAlphabet 20 ∧
      getHarf demoAlphabet 10 ∈ demoAfter ∧
      ToGlyph demoAlphabet demoAfter [10, 20, 20] = some [12, 22, 24] ∧
      (getHarf demoAlphabet 10).Final = 14 ∧
      ¬ (∃ out, ToGlyph demoAlphabet demoAfter [10, 20, 20] = some out ∧
          out[0]? = some (getHarf demoAlphabet 10).Final)) ∧
    (NoCollision surrogateAlphabet ∧ ¬ Classifies surrogateAlphabet 0 ∧
      Classifies surrogateAlphabet 20 ∧ Classifies surrogateAlphabet 10 ∧
      getHarf surrogateAlphabet 20 ∈ surrogateAfter ∧
      ToGlyph surrogateAlphabet surrogateAfter [20, 10, 20] = some [22, 65533, 24] ∧
      (getHarf surrogateAlphabet 10).Beggining = 55297 ∧
      ¬ (∃ out, ToGlyph surrogateAlphabet surrogateAfter [20, 10, 20] = some out ∧
          out[1]? = some (getHarf surrogateAlphabet 10).Beggining)) := by
  decide

/-- C4, amended. On a table without collisions in which the sentinel `0` does not
classify, for runes `a`, `b`, `c` that all classify, the letter of `a` being in the
non-connecting-after set, `ToGlyph` of the text `a b c` has the initial form of the letter
of `a` as its first rune and the initial form of the letter of `b`, not its medial form,
as its second rune, U+FFFD standing for a form that is no Unicode scalar value. -/
theorem ToGlyph_override (alphabet after : List Harf)
    (_hnc : NoCollision alphabet) (h0 : ¬ Classifies alphabet 0)
    (a b c : Rune) (ha : Classifies alphabet a) (hb : Classifies alphabet b)
    (hc : Classifies alphabet c) (hmem : getHarf alphabet a ∈ after) :
    ∃ out, ToGlyph alphabet after [a, b, c] = some out ∧
      out[0]? = some (toScalar (getHarf alphabet a).Beggining) ∧
      out[1]? = some (toScalar (getHarf alphabet b).Beggining) := by
  refine ⟨_, ToGlyph_eq alphabet after [a, b, c], ?_, ?_⟩
  · simp [stringOf, List.range_succ, window, getCharGlyph_eq, chosen, h0, ha, hb]
  · have hblk : getCharGlyph.blocked after a = true :=
      (blocked_iff after a).2 ⟨_, hmem, (getHarf_mem_equals alphabet a ha).2⟩
    simp [stringOf, List.range_succ, window, getCharGlyph_eq, chosen, ha, hb, hc, hblk]

/-- Witness of the amended C4 on `demoAlphabet` and the text `10 20 20`. -/
theorem ToGlyph_override_witness :
    ∃ out, ToGlyph demoAlphabet demoAfter [10, 20, 20] = some out ∧
      out[0]? = some 12 ∧ out[1]? = some 22 :=
  ToGlyph_override demoAlphabet demoAfter (by decide) (by decide) 10 20 20
    (by decide) (by decide) (by decide) (by decide)

/-- C7. Pass-through of text outside the alphabet: `ToGlyph` returns a string none of
whose runes classifies as it is, the slice `newText` it builds being its argument for
every rune slice, and `getCharGlyph` returns a current rune that does not classify
unchanged, whatever its neighbours. -/
theorem ToGlyph_pass_through (alphabet after : List Harf) :
    (∀ s : List Rune, IsString s → (∀ c ∈ s, ¬ Classifies alphabet c) →
      ToGlyph alphabet after s = some s) ∧
    (∀ s : List Rune, (∀ c ∈ s, ¬ Classifies alphabet c) →
      ToGlyph.newText alphabet after s = some s) ∧
    (∀ prev cur next : Rune, ¬ Classifies alphabet cur →
      getCharGlyph alphabet after prev cur next = cur) := by
  have hnew : ∀ s : List Rune, (∀ c ∈ s, ¬ Classifies alphabet c) →
      ToGlyph.newText alphabet after s = some s := by
    intro s hs
    rw [ToGlyph_newText_eq]
    congr 1
    apply List.ext_getElem
    · simp
    · intro i h1 h2
      have hi : i < s.length := h2
      have hn : ¬ Classifies alphabet s[i] := hs _ (List.getElem_mem hi)
      simp [window, getCharGlyph_eq, List.getElem?_eq_getElem hi, hn]
  refine ⟨?_, hnew, ?_⟩
  · intro s hstr hs
    rw [ToGlyph, hnew s hs, Option.map_some', stringOf_of_string hstr]
  · intro prev cur next hcur
    rw [getCharGlyph_eq, if_neg hcur]

/-- Witness of C7 on `demoAlphabet`: the text `5 6 7`, and the rune `5` between two
letters. -/
theorem ToGlyph_pass_through_witness :
    ToGlyph demoAlphabet demoAfter [5, 6, 7] = some [5, 6, 7] ∧
    getCharGlyph demoAlphabet demoAfter 10 5 20 = 5 :=
  ⟨(ToGlyph_pass_through demoAlphabet demoAfter).1 [5, 6, 7] (by decide) (by decide),
   (ToGlyph_pass_through demoAlphabet demoAfter).2.2 10 5 20 (by decide)⟩

/-- C8. Classifier consistency: on a table without collisions, every entry `L` recognises
each of its five fields `f` (Unicode, Beggining, Isolated, Medium, Final), and `getHarf f`
returns `L`. -/
theorem getHarf_consistent (alphabet : List Harf) (hnc : NoCollision alphabet)
    (L : Harf) (hL : L ∈ alphabet) (f : Rune)
    (hf : f = L.Unicode ∨ f = L.Beggining ∨ f = L.Isolated ∨ f = L.Medium ∨ f = L.Final) :
    L.equals f = true ∧ getHarf alphabet f = L := by
  have he : L.equals f = true := (Harf.equals_iff L f).2 hf
  exact ⟨he, getHarf_eq_of_equals hnc hL he⟩

/-- Witness of C8 on `demoAlphabet`: the medial form `23` of its second entry. -/
theorem getHarf_consistent_witness :
    Harf.equals { Unicode := 20, Isolated := 21, Beggining := 22, Medium := 23, Final := 24 } 23
        = true ∧
      getHarf demoAlphabet 23
        = { Unicode := 20, Isolated := 21, Beggining := 22, Medium := 23, Final := 24 } :=
  getHarf_consistent demoAlphabet (by decide)
    { Unicode := 20, Isolated := 21, Beggining := 22, Medium := 23, Final := 24 } (by decide)
    23 (by decide)

/-! ## The reversal of foreign runs -/

theorem perm_pair {α : Type} [DecidableEq α] (x y : α) (l : List α) (h : l.Perm [x, y]) :
    l = [x, y] ∨ l = [y, x] := by
  have hl := h.length_eq
  match l, hl, h with
  | [a, b], _, h =>
    rw [List.cons_perm_iff_perm_erase] at h
    obtain ⟨ha, hb⟩ := h
    by_cases hax : a = x
    · subst hax
      simp at hb
      simp [hb]
    · have hay : a = y := by simpa [hax] using ha
      subst hay
      have hxa : ¬ x = a := fun e => hax e.symm
      simp [List.erase_cons, hxa] at hb
      simp [hb]

/-- C9. The code at the text `ab ba` (runes `97 98 32 98 97`): the match map holds
`ab -> ba` and `ba -> ab`, and whichever entry the replace loop takes first, the second
replacement undoes or repeats the first one; the result is `ab ab` or `ba ba`, never the
text `ba ab` in which each run is reversed at its own position. -/
theorem ReverseNumbersAndEnglishAlphabet_not_positional (range : RangeOrder)
    (hrange : range.Valid) :
    reverseRunsInPlace [97, 98, 32, 98, 97] [] = [98, 97, 32, 97, 98] ∧
    (ReverseNumbersAndEnglishAlphabet range [97, 98, 32, 98, 97] = some [97, 98, 32, 97, 98] ∨
      ReverseNumbersAndEnglishAlphabet range [97, 98, 32, 98, 97]
        = some [98, 97, 32, 98, 97]) ∧
    ReverseNumbersAndEnglishAlphabet range [97, 98, 32, 98, 97]
      ≠ some (reverseRunsInPlace [97, 98, 32, 98, 97] []) := by
  have hm : fillMatchMap (FindAllString [97, 98, 32, 98, 97] []) []
      = some [([97, 98], [98, 97]), ([98, 97], [97, 98])] := by decide
  have hr : ReverseNumbersAndEnglishAlphabet range [97, 98, 32, 98, 97]
      = some (replaceLoop (range [([97, 98], [98, 97]), ([98, 97], [97, 98])])
          [97, 98, 32, 98, 97]) := by
    unfold ReverseNumbersAndEnglishAlphabet
    dsimp only
    rw [hm]
    rfl
  rw [hr]
  rcases perm_pair _ _ _ (hrange [([97, 98], [98, 97]), ([98, 97], [97, 98])]) with h | h <;>
    rw [h] <;> decide

/-- The code of C9 run with the entries of the map taken in the order of their insertion. -/
theorem ReverseNumbersAndEnglishAlphabet_not_positional_witness :
    ReverseNumbersAndEnglishAlphabet id [97, 98, 32, 98, 97]
      ≠ some (reverseRunsInPlace [97, 98, 32, 98, 97] []) :=
  (ReverseNumbersAndEnglishAlphabet_not_positional id (fun _ => List.Perm.refl _)).2.2

/-- C10. The code at the text `ab abc` (runes `97 98 32 97 98 99`): taking the entries of
the match map in the order of their insertion gives `ba bac`, taking them in the opposite
order gives `ba cba`; the result depends on the iteration order of the map. -/
theorem ReverseNumbersAndEnglishAlphabet_order_dependent :
    RangeOrder.Valid id ∧ RangeOrder.Valid List.reverse ∧
    ReverseNumbersAndEnglishAlphabet id [97, 98, 32, 97, 98, 99]
      = some [98, 97, 32, 98, 97, 99] ∧
    ReverseNumbersAndEnglishAlphabet List.reverse [97, 98, 32, 97, 98, 99]
      = some [98, 97, 32, 99, 98, 97] ∧
    ReverseNumbersAndEnglishAlphabet id [97, 98, 32, 97, 98, 99]
      ≠ ReverseNumbersAndEnglishAlphabet List.reverse [97, 98, 32, 97, 98, 99] :=
  ⟨fun _ => List.Perm.refl _, fun m => List.reverse_perm m, by decide, by decide, by decide⟩

/-! ## Filtering utilities -/

theorem inAlphabet_foldl (alphabet : List Harf) (c : Rune) (b : Bool) :
    alphabet.foldl (fun inAlphabet s => if s.equals c then true else inAlphabet) b
      = (b || decide (Classifies alphabet c)) := by
  induction alphabet generalizing b with
  | nil => simp [not_classifies_nil]
  | cons s rest ih =>
    rw [List.foldl_cons, ih]
    by_cases h : s.equals c = true <;> simp [h, classifies_cons]

theorem inAlphabet_eq (alphabet : List Harf) (c : Rune) :
    RemoveAllNonFarsiChars.inAlphabet alphabet c = decide (Classifies alphabet c) := by
  unfold RemoveAllNonFarsiChars.inAlphabet
  rw [inAlphabet_foldl]
  simp

theorem RemoveAllNonFarsiChars_loop_eq (alphabet : List Harf) (text acc : List Rune) :
    RemoveAllNonFarsiChars.loop alphabet text acc
      = acc ++ text.filter (fun c => decide (Classifies alphabet c)) := by
  induction text generalizing acc with
  | nil => simp [RemoveAllNonFarsiChars.loop]
  | cons c rest ih =>
    unfold RemoveAllNonFarsiChars.loop
    rw [inAlphabet_eq]
    by_cases h : Classifies alphabet c <;> simp [h, ih, List.filter_cons]

theorem RemoveTashkeel_loop_eq (tashkeel : Rune → Bool) (s acc : List Rune) :
    RemoveTashkeel.loop tashkeel s acc = acc ++ s.filter (fun c => !tashkeel c) := by
  induction s generalizing acc with
  | nil => simp [RemoveTashkeel.loop]
  | cons c rest ih =>
    unfold RemoveTashkeel.loop
    by_cases h : tashkeel c = true <;> simp [h, ih, List.filter_cons]

theorem RemoveTashkeel_eq (tashkeel : Rune → Bool) (s : List Rune) :
    RemoveTashkeel tashkeel s = s.filter (fun c => !tashkeel c) := by
  unfold RemoveTashkeel
  rw [RemoveTashkeel_loop_eq]
  simp

theorem SmartLength_loop_eq (tashkeel : Rune → Bool) (s : List Rune) (n : Nat) :
    SmartLength.loop tashkeel s n = n + s.countP (fun c => !tashkeel c) := by
  induction s generalizing n with
  | nil => simp [SmartLength.loop]
  | cons c rest ih =>
    unfold SmartLength.loop
    by_cases h : tashkeel c = true
    · simp [h, ih]
    · simp [h, ih, List.countP_cons]
      omega

theorem SmartLength_eq (tashkeel : Rune → Bool) (s : List Rune) :
    SmartLength tashkeel s = s.countP (fun c => !tashkeel c) := by
  unfold SmartLength
  rw [SmartLength_loop_eq]
  simp

theorem RemoveTatweel_loop_eq (TATWEEL : Harf) (s acc : List Rune) :
    RemoveTatweel.loop TATWEEL s acc = acc ++ s.filter (fun c => !TATWEEL.equals c) := by
  induction s generalizing acc with
  | nil => simp [RemoveTatweel.loop]
  | cons c rest ih =>
    unfold RemoveTatweel.loop
    by_cases h : TATWEEL.equals c = true <;> simp [h, ih, List.filter_cons]

theorem tatweelOf_equals (t c : Rune) : (tatweelOf t).equals c = decide (c = t) := by
  by_cases h : c = t <;> simp [Harf.equals, tatweelOf, h]

/-- C15. `RemoveAllNonFarsiChars` is the order-preserving filter by the classifier: its
output is the input with exactly the runes that classify kept, each unchanged and in the
original order, every other rune being dropped. -/
theorem RemoveAllNonFarsiChars_filter (alphabet : List Harf) (text : List Rune) :
    RemoveAllNonFarsiChars alphabet text
      = text.filter (fun c => decide (Classifies alphabet c)) := by
  unfold RemoveAllNonFarsiChars
  rw [RemoveAllNonFarsiChars_loop_eq]
  simp

/-- C16. `RemoveTatweel` removes exactly the elongation character: with `TATWEEL` the
letter of the single elongation code point `t`, the output is the input with the runes
different from `t` kept in their order, so that a rune is removed if and only if it is
`t`. -/
theorem RemoveTatweel_filter (t : Rune) (s : List Rune) :
    RemoveTatweel (tatweelOf t) s = s.filter (fun c => decide (c ≠ t)) ∧
    (∀ c, c ∈ RemoveTatweel (tatweelOf t) s ↔ (c ∈ s ∧ c ≠ t)) := by
  have h : RemoveTatweel (tatweelOf t) s = s.filter (fun c => decide (c ≠ t)) := by
    unfold RemoveTatweel
    rw [RemoveTatweel_loop_eq]
    simp [tatweelOf_equals]
  refine ⟨h, ?_⟩
  intro c
  rw [h]
  simp [List.mem_filter]

/-- C17. `RemoveTashkeel` is idempotent, its output being the input with exactly the runes
outside the diacritic set kept in their order. -/
theorem RemoveTashkeel_idempotent (tashkeel : Rune → Bool) (s : List Rune) :
    RemoveTashkeel tashkeel (RemoveTashkeel tashkeel s) = RemoveTashkeel tashkeel s ∧
    RemoveTashkeel tashkeel s = s.filter (fun c => !tashkeel c) ∧
    (∀ c ∈ RemoveTashkeel tashkeel s, tashkeel c = false) := by
  refine ⟨?_, RemoveTashkeel_eq tashkeel s, ?_⟩
  · simp [RemoveTashkeel_eq]
  · intro c hc
    rw [RemoveTashkeel_eq, List.mem_filter] at hc
    simpa using hc.2

/-- C18. Stripping the diacritics does not change the smart length, `SmartLength` being
the number of runes of its argument that are not in the diacritic set. -/
theorem SmartLength_RemoveTashkeel (tashkeel : Rune → Bool) (s : List Rune) :
    SmartLength tashkeel (RemoveTashkeel tashkeel s) = SmartLength tashkeel s ∧
    SmartLength tashkeel s = s.countP (fun c => !tashkeel c) := by
  refine ⟨?_, SmartLength_eq tashkeel s⟩
  rw [SmartLength_eq, SmartLength_eq, RemoveTashkeel_eq, List.countP_filter]
  simp

/-- C19. `ToGlyph` is total: for every table and every rune sequence, the empty one and
the one-rune ones included, a result is returned, the empty sequence for the empty input;
at every index `i` of the loop the read `runes[i-1]`, made when `i-1 < 0` fails, and the
read `runes[i+1]`, made when `i+1 <= length-1` holds, are within the slice. -/
theorem ToGlyph_total (alphabet after : List Harf) (text : List Rune) :
    (ToGlyph alphabet after text).isSome = true ∧
    ToGlyph alphabet after [] = some [] ∧
    (∀ c : Rune, (ToGlyph alphabet after [c]).isSome = true) ∧
    (∀ i : Nat, i < text.length →
      (¬ ((i : Int) - 1 < 0) → (index text ((i : Int) - 1)).isSome = true) ∧
      ((i : Int) + 1 ≤ (text.length : Int) - 1 →
        (index text ((i : Int) + 1)).isSome = true)) := by
  refine ⟨?_, ?_, ?_, ?_⟩
  · rw [ToGlyph_eq]; rfl
  · rw [ToGlyph_eq]; rfl
  · intro c; rw [ToGlyph_eq]; rfl
  · intro i hi
    constructor
    · intro h
      have h0 : i ≠ 0 := by omega
      have h1 : i - 1 < text.length := by omega
      rw [index_pred text i h0, List.getElem?_eq_getElem h1]
      rfl
    · intro h
      have h1 : i + 1 < text.length := by omega
      rw [index_succ, List.getElem?_eq_getElem h1]
      rfl

/-- Witness of C19 on `demoAlphabet`: the text `10 20`, and the read `runes[i-1]` at the
index `1`. -/
theorem ToGlyph_total_witness :
    (ToGlyph demoAlphabet demoAfter [10, 20]).isSome = true ∧
    (index [10, 20] 0).isSome = true :=
  ⟨(ToGlyph_total demoAlphabet demoAfter [10, 20]).1,
   ((ToGlyph_total demoAlphabet demoAfter [10, 20]).2.2.2 1 (by decide)).1 (by decide)⟩

/-! ## The reversal of a rune sequence -/

theorem swapped_getElem? (r : List Rune) (k i : Nat) :
    (swapped r k)[i]? =
      if i < r.length then
        some (if i < k ∨ r.length - k ≤ i then r[r.length - 1 - i]?.getD 0 else r[i]?.getD 0)
      else none := by
  unfold swapped
  by_cases h : i < r.length
  · simp [List.getElem?_map, List.getElem?_range h, h]
  · simp [h]
    omega

theorem swapped_length (r : List Rune) (k : Nat) : (swapped r k).length = r.length := by
  simp [swapped]

theorem swapped_zero (r : List Rune) : swapped r 0 = r := by
  apply List.ext_getElem?
  intro i
  rw [swapped_getElem?]
  by_cases h : i < r.length
  · have h2 : ¬ r.length ≤ i := by omega
    simp [h, h2, List.getElem?_eq_getElem h]
  · simp [h]
    omega

theorem swapped_half (r : List Rune) : swapped r (r.length / 2) = r.reverse := by
  apply List.ext_getElem?
  intro i
  rw [swapped_getElem?]
  by_cases h : i < r.length
  · rw [if_pos h, List.getElem?_reverse h]
    have h1 : r.length - 1 - i < r.length := by omega
    by_cases hc : i < r.length / 2 ∨ r.length - r.length / 2 ≤ i
    · rw [if_pos hc, List.getElem?_eq_getElem h1]
      rfl
    · have hi : r.length - 1 - i = i := by omega
      rw [if_neg hc, hi, List.getElem?_eq_getElem h]
      rfl
  · have h2 : r.length ≤ i := by omega
    rw [if_neg h, List.getElem?_eq_none (by simpa using h2)]

theorem Reverse_step_swapped (r : List Rune) (k : Nat) (hk : k < r.length / 2) :
    Reverse.step ((r.length : Int) - 1 - k, swapped r k) k
      = some ((r.length : Int) - 1 - (k + 1 : Nat), swapped r (k + 1)) := by
  have hj : ((r.length : Int) - 1 - k).toNat = r.length - 1 - k := by omega
  have hneg : ¬ ((r.length : Int) - 1 - k < 0) := by omega
  have hk1 : k < r.length := by omega
  have hk2 : r.length - 1 - k < r.length := by omega
  have hri : (swapped r k)[k]? = some (r[k]?.getD 0) := by
    have : ¬ (k < k ∨ r.length - k ≤ k) := by omega
    rw [swapped_getElem?, if_pos hk1, if_neg this]
  have hrj : (swapped r k)[r.length - 1 - k]? = some (r[r.length - 1 - k]?.getD 0) := by
    have : ¬ (r.length - 1 - k < k ∨ r.length - k ≤ r.length - 1 - k) := by omega
    rw [swapped_getElem?, if_pos hk2, if_neg this]
  unfold Reverse.step
  simp only [hneg, if_false, hj, hri, hrj, Option.bind_eq_bind, Option.some_bind]
  congr 1
  refine Prod.ext (by simp only [Nat.cast_add, Nat.cast_one]; omega) ?_
  apply List.ext_getElem?
  intro i
  simp only [List.getElem?_set, List.length_set, swapped_length, swapped_getElem?]
  by_cases hi : i < r.length
  · by_cases h1 : r.length - 1 - k = i
    · have h2 : i < k + 1 ∨ r.length - (k + 1) ≤ i := by omega
      have h3 : r.length - 1 - i = k := by omega
      rw [if_pos h1, if_pos hk2, if_pos hi, if_pos h2, h3]
    · by_cases h2 : k = i
      · have h3 : i < k + 1 ∨ r.length - (k + 1) ≤ i := by omega
        rw [if_neg h1, if_pos h2, if_pos hk1, if_pos hi, if_pos h3, h2]
      · have h3 : (i < k + 1 ∨ r.length - (k + 1) ≤ i) ↔ (i < k ∨ r.length - k ≤ i) := by
          omega
        rw [if_neg h1, if_neg h2, if_pos hi, if_pos hi]
        by_cases hc : i < k ∨ r.length - k ≤ i
        · rw [if_pos hc, if_pos (h3.2 hc)]
        · rw [if_neg hc, if_neg (fun h => hc (h3.1 h))]
  · have h1 : ¬ r.length - 1 - k = i := by omega
    have h2 : ¬ k = i := by omega
    rw [if_neg h1, if_neg h2, if_neg hi, if_neg hi]

theorem Reverse_loop_swapped (r : List Rune) (k : Nat) (hk : k ≤ r.length / 2) :
    (List.range k).foldlM Reverse.step ((r.length : Int) - 1, r)
      = some ((r.length : Int) - 1 - k, swapped r k) := by
  induction k with
  | zero => simp [swapped_zero]
  | succ k ih =>
    rw [List.range_succ, List.foldlM_append, ih (by omega)]
    simp only [Option.bind_eq_bind, Option.some_bind, List.foldlM_cons, List.foldlM_nil]
    rw [Reverse_step_swapped r k (by omega)]
    rfl

theorem Reverse_eq (r : List Rune) : Reverse r = some r.reverse := by
  unfold Reverse
  rw [Reverse_loop_swapped r (r.length / 2) (le_refl _)]
  simp [swapped_half]

/-- C13. `Reverse` returns the rune-wise reversal: for a sequence `r` of length `n` the
result has length `n` and holds `r[n-1-i]` at every index `i < n`; the empty sequence is
returned as it is. -/
theorem Reverse_reversal (r : List Rune) :
    (∃ out, Reverse r = some out ∧ out.length = r.length ∧
      ∀ (i : Nat) (hi : i < r.length), out[i]? = some r[r.length - 1 - i]) ∧
    Reverse [] = some [] := by
  refine ⟨⟨r.reverse, Reverse_eq r, List.length_reverse r, ?_⟩, Reverse_eq []⟩
  intro i hi
  rw [List.getElem?_reverse hi, List.getElem?_eq_getElem (by omega)]

/-- Witness of C13: index `1` of the reversal of a sequence of five runes. -/
theorem Reverse_reversal_witness :
    ∃ out, Reverse [1, 2, 3, 4, 5] = some out ∧ out.length = 5 ∧ out[1]? = some 4 := by
  obtain ⟨out, h1, h2, h3⟩ := (Reverse_reversal [1, 2, 3, 4, 5]).1
  exact ⟨out, h1, h2, h3 1 (by decide)⟩

/-- C14. `Reverse` is an involution: reversing the reversal of a rune sequence gives the
sequence back. -/
theorem Reverse_involution (s : List Rune) : (Reverse s).bind Reverse = some s := by
  rw [Reverse_eq, Option.some_bind, Reverse_eq, List.reverse_reverse]

/-! ## A text with a single foreign run -/

theorem FindAllString_skip (pre rest : List Rune) (hpre : ∀ c ∈ pre, isForeign c = false) :
    FindAllString (pre ++ rest) [] = FindAllString rest [] := by
  induction pre with
  | nil => rfl
  | cons c pre ih =>
    have hc : isForeign c = false := hpre c (List.mem_cons_self _ _)
    rw [List.cons_append, FindAllString]
    simp only [hc, Bool.false_eq_true, if_false, if_true]
    exact ih (fun d hd => hpre d (List.mem_cons_of_mem _ hd))

theorem FindAllString_run (run rest acc : List Rune) (hrun : ∀ c ∈ run, isForeign c = true) :
    FindAllString (run ++ rest) acc = FindAllString rest (acc ++ run) := by
  induction run generalizing acc with
  | nil => simp
  | cons c run ih =>
    have hc : isForeign c = true := hrun c (List.mem_cons_self _ _)
    rw [List.cons_append, FindAllString]
    simp only [hc, if_true]
    rw [ih _ (fun d hd => hrun d (List.mem_cons_of_mem _ hd))]
    simp

theorem FindAllString_close (post acc : List Rune) (hacc : acc ≠ [])
    (hpost : ∀ c ∈ post, isForeign c = false) :
    FindAllString post acc = [acc] := by
  cases post with
  | nil => simp [FindAllString, hacc]
  | cons c post =>
    have hc : isForeign c = false := hpost c (List.mem_cons_self _ _)
    have h := FindAllString_skip post [] (fun d hd => hpost d (List.mem_cons_of_mem _ hd))
    rw [List.append_nil] at h
    rw [FindAllString]
    simp only [hc, Bool.false_eq_true, if_false, hacc, h]
    simp [FindAllString]

theorem FindAllString_single (pre run post : List Rune)
    (hpre : ∀ c ∈ pre, isForeign c = false) (hrun : ∀ c ∈ run, isForeign c = true)
    (hne : run ≠ []) (hpost : ∀ c ∈ post, isForeign c = false) :
    FindAllString (pre ++ run ++ post) [] = [run] := by
  rw [List.append_assoc, FindAllString_skip _ _ hpre, FindAllString_run _ _ _ hrun,
    List.nil_append, FindAllString_close _ _ hne hpost]

theorem scan_skip (old new : List Rune) (skip : Nat) (l rest : List Rune)
    (hl : l.length = skip) :
    Replace.scan old new skip (l ++ rest) = Replace.scan old new 0 rest := by
  induction l generalizing skip with
  | nil => simp at hl; subst hl; rfl
  | cons c l ih =>
    cases skip with
    | zero => simp at hl
    | succ k =>
      rw [List.cons_append, Replace.scan]
      exact ih k (by simpa using hl)

theorem scan_pass (a : Rune) (old new pre rest : List Rune) (ha : isForeign a = true)
    (hpre : ∀ c ∈ pre, isForeign c = false) :
    Replace.scan (a :: old) new 0 (pre ++ rest) = pre ++ Replace.scan (a :: old) new 0 rest := by
  induction pre with
  | nil => rfl
  | cons c pre ih =>
    have hc : isForeign c = false := hpre c (List.mem_cons_self _ _)
    have hac : ¬ a = c := by
      intro e
      rw [e, hc] at ha
      exact absurd ha (by decide)
    have hb : (a == c) = false := by simpa using hac
    rw [List.cons_append, Replace.scan]
    simp only [List.isPrefixOf, hb, Bool.false_and, Bool.false_eq_true, if_false]
    rw [ih (fun d hd => hpre d (List.mem_cons_of_mem _ hd))]
    rfl

theorem Replace_single (pre run post : List Rune)
    (hpre : ∀ c ∈ pre, isForeign c = false) (hrun : ∀ c ∈ run, isForeign c = true)
    (hne : run ≠ []) (hpost : ∀ c ∈ post, isForeign c = false) :
    Replace (pre ++ run ++ post) run run.reverse = pre ++ run.reverse ++ post := by
  unfold Replace
  by_cases he : run = run.reverse
  · rw [if_pos he, ← he]
  · rw [if_neg he, if_neg hne]
    cases run with
    | nil => exact absurd rfl hne
    | cons a run =>
      have ha : isForeign a = true := hrun a (List.mem_cons_self _ _)
      have hpfx : (a :: run).isPrefixOf (a :: (run ++ post)) = true := by
        rw [List.isPrefixOf_iff_prefix]
        exact List.prefix_append (a :: run) post
      have hpost2 := scan_pass a run (a :: run).reverse post [] ha hpost
      rw [List.append_nil] at hpost2
      rw [List.append_assoc, scan_pass a run _ pre _ ha hpre, List.cons_append, Replace.scan,
        if_pos hpfx, scan_skip _ _ _ run post (by simp), hpost2]
      simp [Replace.scan]

/-- C11. A single foreign run: when the input is `pre ++ run ++ post` with `run` a
non-empty run of characters of the class `[A-Za-z0-9,.]` and no character of the class in
`pre` or `post`, `ReverseNumbersAndEnglishAlphabet` returns, whatever the order of the map
iteration, the input with the run replaced in place by its reversal and all other
characters unchanged. -/
theorem ReverseNumbersAndEnglishAlphabet_single_run (range : RangeOrder)
    (hrange : range.Valid) (pre run post : List Rune)
    (hpre : ∀ c ∈ pre, isForeign c = false) (hrun : ∀ c ∈ run, isForeign c = true)
    (hne : run ≠ []) (hpost : ∀ c ∈ post, isForeign c = false) :
    ReverseNumbersAndEnglishAlphabet range (pre ++ run ++ post)
      = some (pre ++ run.reverse ++ post) := by
  have hm : fillMatchMap [run] [] = some [(run, run.reverse)] := by
    simp [fillMatchMap, Reverse_eq, mapAssign]
  have hr : range [(run, run.reverse)] = [(run, run.reverse)] :=
    List.perm_singleton.1 (hrange _)
  unfold ReverseNumbersAndEnglishAlphabet
  dsimp only
  rw [FindAllString_single pre run post hpre hrun hne hpost, hm]
  simp only [Option.bind_eq_bind, Option.some_bind, hr, replaceLoop, List.foldl_cons,
    List.foldl_nil]
  rw [Replace_single pre run post hpre hrun hne hpost]

/-- Witness of C11: the example of the specification, the text `سلام 123 دنیا`, whose run
`123` (runes `49 50 51`) becomes `321`. -/
theorem ReverseNumbersAndEnglishAlphabet_single_run_witness :
    ReverseNumbersAndEnglishAlphabet id
        [1587, 1604, 1575, 1605, 32, 49, 50, 51, 32, 1583, 1606, 1740, 1575]
      = some [1587, 1604, 1575, 1605, 32, 51, 50, 49, 32, 1583, 1606, 1740, 1575] :=
  ReverseNumbersAndEnglishAlphabet_single_run id (fun _ => List.Perm.refl _)
    [1587, 1604, 1575, 1605, 32] [49, 50, 51] [32, 1583, 1606, 1740, 1575]
    (by decide) (by decide) (by decide) (by decide)

/-! ## What the reversal of foreign runs leaves in place -/

theorem mask_foreign (l : List Rune) (hl : ∀ c ∈ l, isForeign c = true) :
    l.map mask = List.replicate l.length none := by
  induction l with
  | nil => rfl
  | cons c l ih =>
    have hc : isForeign c = true := hl c (List.mem_cons_self _ _)
    rw [List.map_cons, ih (fun d hd => hl d (List.mem_cons_of_mem _ hd))]
    simp [mask, hc, List.replicate_succ]

theorem scan_mask (a : Rune) (old new : List Rune)
    (hold : ∀ c ∈ a :: old, isForeign c = true) (hnew : ∀ c ∈ new, isForeign c = true)
    (hlen : new.length = (a :: old).length) (l : List Rune) :
    ∀ skip : Nat, (Replace.scan (a :: old) new skip l).map mask = (l.drop skip).map mask := by
  induction l with
  | nil => intro skip; simp [Replace.scan]
  | cons c l ih =>
    intro skip
    cases skip with
    | succ k =>
      rw [Replace.scan, List.drop_succ_cons]
      exact ih k
    | zero =>
      rw [Replace.scan, List.drop_zero]
      by_cases hp : (a :: old).isPrefixOf (c :: l) = true
      · rw [if_pos hp, List.map_append, ih, mask_foreign new hnew, hlen]
        rw [List.isPrefixOf_iff_prefix] at hp
        obtain ⟨t, ht⟩ := hp
        have hc : c = a := by
          have := congrArg List.head? ht
          simpa using this.symm
        have hl : l = old ++ t := by
          have := congrArg List.tail ht
          simpa using this.symm
        have hca : isForeign c = true := hc ▸ hold a (List.mem_cons_self _ _)
        have hom := mask_foreign old (fun d hd => hold d (List.mem_cons_of_mem _ hd))
        rw [hl]
        simp [mask, hca, hom, List.replicate_succ]
      · rw [if_neg hp, List.map_cons, ih 0, List.drop_zero, List.map_cons]

theorem Replace_mask (s old new : List Rune)
    (hold : ∀ c ∈ old, isForeign c = true) (hnew : ∀ c ∈ new, isForeign c = true)
    (hlen : new.length = old.length) :
    (Replace s old new).map mask = s.map mask := by
  unfold Replace
  by_cases he : old = new
  · rw [if_pos he]
  · rw [if_neg he]
    cases old with
    | nil =>
      have : new = [] := List.length_eq_zero.1 (by simpa using hlen)
      exact absurd this.symm he
    | cons a old =>
      rw [if_neg (by simp)]
      exact scan_mask a old new hold hnew hlen s 0

theorem replaceLoop_mask (order : List (List Rune × List Rune)) (input : List Rune)
    (horder : ∀ e ∈ order, (∀ c ∈ e.1, isForeign c = true) ∧ e.2 = e.1.reverse) :
    (replaceLoop order input).map mask = input.map mask := by
  unfold replaceLoop
  induction order generalizing input with
  | nil => rfl
  | cons e order ih =>
    have he := horder e (List.mem_cons_self _ _)
    rw [List.foldl_cons, ih _ (fun d hd => horder d (List.mem_cons_of_mem _ hd))]
    apply Replace_mask _ _ _ he.1
    · intro c hc
      rw [he.2] at hc
      exact he.1 c (List.mem_reverse.1 hc)
    · rw [he.2, List.length_reverse]

theorem FindAllString_foreign (l acc : List Rune) (hacc : ∀ c ∈ acc, isForeign c = true) :
    ∀ r ∈ FindAllString l acc, ∀ c ∈ r, isForeign c = true := by
  induction l generalizing acc with
  | nil =>
    intro r hr
    unfold FindAllString at hr
    by_cases h : acc = []
    · simp [h] at hr
    · simp only [h, if_false, List.mem_singleton] at hr
      rw [hr]
      exact hacc
  | cons d l ih =>
    intro r hr
    unfold FindAllString at hr
    by_cases hd : isForeign d = true
    · rw [if_pos hd] at hr
      refine ih (acc ++ [d]) ?_ r hr
      intro c hc
      rcases List.mem_append.1 hc with h | h
      · exact hacc c h
      · rw [List.mem_singleton.1 h]; exact hd
    · rw [if_neg hd] at hr
      by_cases h : acc = []
      · rw [if_pos h] at hr
        exact ih [] (by simp) r hr
      · rw [if_neg h] at hr
        rcases List.mem_cons.1 hr with h1 | h1
        · rw [h1]; exact hacc
        · exact ih [] (by simp) r h1

theorem mapAssign_entries (m : List (List Rune × List Rune)) (k : List Rune)
    (hm : ∀ e ∈ m, (∀ c ∈ e.1, isForeign c = true) ∧ e.2 = e.1.reverse)
    (hk : ∀ c ∈ k, isForeign c = true) :
    ∀ e ∈ mapAssign m k k.reverse, (∀ c ∈ e.1, isForeign c = true) ∧ e.2 = e.1.reverse := by
  intro e he
  unfold mapAssign at he
  split at he
  · obtain ⟨d, hd, hde⟩ := List.mem_map.1 he
    by_cases h : d.1 = k
    · rw [if_pos h] at hde
      rw [← hde]
      exact ⟨hk, rfl⟩
    · rw [if_neg h] at hde
      rw [← hde]
      exact hm d hd
  · rcases List.mem_append.1 he with h | h
    · exact hm e h
    · rw [List.mem_singleton.1 h]
      exact ⟨hk, rfl⟩

theorem fillMatchMap_entries (ms : List (List Rune)) (m : List (List Rune × List Rune))
    (hms : ∀ r ∈ ms, ∀ c ∈ r, isForeign c = true)
    (hm : ∀ e ∈ m, (∀ c ∈ e.1, isForeign c = true) ∧ e.2 = e.1.reverse) :
    ∃ m', fillMatchMap ms m = some m' ∧
      ∀ e ∈ m', (∀ c ∈ e.1, isForeign c = true) ∧ e.2 = e.1.reverse := by
  induction ms generalizing m with
  | nil => exact ⟨m, rfl, hm⟩
  | cons k ms ih =>
    unfold fillMatchMap
    rw [Reverse_eq]
    simp only [Option.bind_eq_bind, Option.some_bind]
    exact ih _ (fun r hr => hms r (List.mem_cons_of_mem _ hr))
      (mapAssign_entries m k hm (hms k (List.mem_cons_self _ _)))

theorem ReverseNumbersAndEnglishAlphabet_mask (range : RangeOrder) (hrange : range.Valid)
    (input : List Rune) :
    ∃ out, ReverseNumbersAndEnglishAlphabet range input = some out ∧
      out.map mask = input.map mask := by
  obtain ⟨m, hm, hent⟩ := fillMatchMap_entries (FindAllString input []) []
    (FindAllString_foreign input [] (by simp)) (by simp)
  refine ⟨replaceLoop (range m) input, ?_, ?_⟩
  · unfold ReverseNumbersAndEnglishAlphabet
    dsimp only
    rw [hm]
    rfl
  · exact replaceLoop_mask _ _ (fun e he => hent e ((hrange m).mem_iff.1 he))

/-- C12. `ReverseNumbersAndEnglishAlphabet` leaves everything outside the foreign runs in
place: for every input and every order of the map iteration a result is returned, it has
as many runes as the input, every position that holds a character outside the class
`[A-Za-z0-9,.]` in the input holds the same character in the output, and every position
that holds a character of the class in the input holds a character of the class in the
output. -/
theorem ReverseNumbersAndEnglishAlphabet_frame (range : RangeOrder) (hrange : range.Valid)
    (input : List Rune) :
    ∃ out, ReverseNumbersAndEnglishAlphabet range input = some out ∧
      out.length = input.length ∧
      ∀ (i : Nat) (hi : i < input.length), ∃ c, out[i]? = some c ∧
        (isForeign input[i] = false → c = input[i]) ∧
        (isForeign input[i] = true → isForeign c = true) := by
  obtain ⟨out, hout, hmask⟩ := ReverseNumbersAndEnglishAlphabet_mask range hrange input
  have hlen : out.length = input.length := by
    have := congrArg List.length hmask
    simpa using this
  refine ⟨out, hout, hlen, ?_⟩
  intro i hi
  have hi2 : i < out.length := by omega
  refine ⟨out[i], List.getElem?_eq_getElem hi2, ?_⟩
  have h := congrArg (fun l => l[i]?) hmask
  simp only [List.getElem?_map, List.getElem?_eq_getElem hi, List.getElem?_eq_getElem hi2,
    Option.map_some'] at h
  have h2 : mask out[i] = mask input[i] := Option.some.inj h
  unfold mask at h2
  constructor
  · intro hf
    by_cases ho : isForeign out[i] = true
    · simp [hf, ho] at h2
    · simpa [hf, ho] using h2
  · intro hf
    by_cases ho : isForeign out[i] = true
    · exact ho
    · simp [hf, ho] at h2

/-- Witness of C12: the text `ab, c!` (runes `97 98 44 32 99 33`) with the map taken in
the order of insertion; the space at index `3` stays. -/
theorem ReverseNumbersAndEnglishAlphabet_frame_witness :
    ∃ out, ReverseNumbersAndEnglishAlphabet id [97, 98, 44, 32, 99, 33] = some out ∧
      out.length = 6 ∧ out[3]? = some 32 := by
  obtain ⟨out, h1, h2, h3⟩ :=
    ReverseNumbersAndEnglishAlphabet_frame id (fun _ => List.Perm.refl _)
      [97, 98, 44, 32, 99, 33]
  obtain ⟨c, hc, hsame, _⟩ := h3 3 (by decide)
  exact ⟨out, h1, h2, by rw [hc, hsame (by decide)]; rfl⟩

/-! ## Shaping a shaped text -/

theorem chosen_form (alphabet after : List Harf) (pin nin : Bool) (p c : Rune) :
    (getHarf alphabet c).equals (chosen alphabet after pin nin p c) = true := by
  rw [Harf.equals_iff]
  unfold chosen
  split
  · split
    · exact Or.inr (Or.inl rfl)
    · exact Or.inr (Or.inr (Or.inr (Or.inl rfl)))
  · split
    · exact Or.inr (Or.inl rfl)
    · split
      · split
        · exact Or.inr (Or.inr (Or.inl rfl))
        · exact Or.inr (Or.inr (Or.inr (Or.inr rfl)))
      · exact Or.inr (Or.inr (Or.inl rfl))

theorem glyph_sameLetter {alphabet : List Harf} (hnc : NoCollision alphabet)
    (after : List Harf) (p c n : Rune) :
    SameLetter alphabet c (getCharGlyph alphabet after p c n) := by
  rw [getCharGlyph_eq]
  by_cases hc : Classifies alphabet c
  · rw [if_pos hc]
    have hL := getHarf_mem_equals alphabet c hc
    have hf := chosen_form alphabet after (decide (Classifies alphabet p))
      (decide (Classifies alphabet n)) p c
    refine Or.inr ⟨hc, (classifies_iff_equals _ _).2 ⟨_, hL.1, hf⟩, ?_⟩
    exact (getHarf_eq_of_equals hnc hL.1 hf).symm
  · rw [if_neg hc]
    exact Or.inl rfl

theorem SameLetter.classifies_iff {alphabet : List Harf} {x y : Rune}
    (h : SameLetter alphabet x y) : Classifies alphabet x ↔ Classifies alphabet y := by
  rcases h with h | ⟨hx, hy, _⟩
  · rw [h]
  · exact ⟨fun _ => hy, fun _ => hx⟩

theorem SameLetter.blocked_eq {alphabet after : List Harf} (hnc : NoCollision alphabet)
    (hsub : ∀ s ∈ after, s ∈ alphabet) {x y : Rune} (h : SameLetter alphabet x y) :
    getCharGlyph.blocked after x = getCharGlyph.blocked after y := by
  rcases h with h | ⟨hx, hy, he⟩
  · rw [h]
  · rw [Bool.eq_iff_iff, blocked_iff_mem hnc hsub hx, blocked_iff_mem hnc hsub hy, he]

theorem chosen_congr {alphabet after : List Harf} {p p' c c' : Rune} (pin nin : Bool)
    (hb : getCharGlyph.blocked after p' = getCharGlyph.blocked after p)
    (hg : getHarf alphabet c' = getHarf alphabet c) :
    chosen alphabet after pin nin p' c' = chosen alphabet after pin nin p c := by
  unfold chosen
  rw [hb, hg]

theorem getCharGlyph_congr {alphabet after : List Harf} (hnc : NoCollision alphabet)
    (hsub : ∀ s ∈ after, s ∈ alphabet) {p p' c c' n n' : Rune}
    (hp : SameLetter alphabet p p') (hc : SameLetter alphabet c c')
    (hn : SameLetter alphabet n n') :
    getCharGlyph alphabet after p' c' n' = getCharGlyph alphabet after p c n := by
  rw [getCharGlyph_eq, getCharGlyph_eq]
  have hpd : decide (Classifies alphabet p') = decide (Classifies alphabet p) :=
    decide_eq_decide.2 hp.classifies_iff.symm
  have hnd : decide (Classifies alphabet n') = decide (Classifies alphabet n) :=
    decide_eq_decide.2 hn.classifies_iff.symm
  have hb : getCharGlyph.blocked after p' = getCharGlyph.blocked after p :=
    (hp.blocked_eq hnc hsub).symm
  rw [hpd, hnd]
  rcases hc with hc | ⟨hx, hy, he⟩
  · subst hc
    rw [chosen_congr _ _ hb rfl]
  · rw [if_pos hx, if_pos hy, chosen_congr _ _ hb he.symm]

theorem window_sameLetter {alphabet : List Harf} (hnc : NoCollision alphabet)
    (after : List Harf) (text : List Rune) (j : Nat) :
    SameLetter alphabet (text[j]?.getD 0) (window alphabet after text j) := by
  unfold window
  exact glyph_sameLetter hnc after _ _ _

theorem window_window {alphabet after : List Harf} (hnc : NoCollision alphabet)
    (hsub : ∀ s ∈ after, s ∈ alphabet) (text : List Rune) (i : Nat) (hi : i < text.length) :
    window alphabet after ((List.range text.length).map (window alphabet after text)) i
      = window alphabet after text i := by
  have hget : ∀ j, j < text.length →
      ((List.range text.length).map (window alphabet after text))[j]?.getD 0
        = window alphabet after text j := by
    intro j hj
    simp [List.getElem?_map, List.getElem?_range hj]
  have hlen : ((List.range text.length).map (window alphabet after text)).length
      = text.length := by simp
  have e : ∀ t : List Rune, window alphabet after t i
      = getCharGlyph alphabet after (if i = 0 then 0 else t[i - 1]?.getD 0) (t[i]?.getD 0)
          (if i + 1 < t.length then t[i + 1]?.getD 0 else 0) := fun _ => rfl
  rw [e ((List.range text.length).map (window alphabet after text)), e text, hlen, hget i hi]
  apply getCharGlyph_congr hnc hsub
  · by_cases h0 : i = 0
    · rw [if_pos h0, if_pos h0]
      exact Or.inl rfl
    · rw [if_neg h0, if_neg h0, hget (i - 1) (by omega)]
      exact window_sameLetter hnc after text (i - 1)
  · exact window_sameLetter hnc after text i
  · by_cases h1 : i + 1 < text.length
    · rw [if_pos h1, if_pos h1, hget (i + 1) h1]
      exact window_sameLetter hnc after text (i + 1)
    · rw [if_neg h1, if_neg h1]
      exact Or.inl rfl

theorem ToGlyph_newText_idempotent {alphabet after : List Harf} (hnc : NoCollision alphabet)
    (hsub : ∀ s ∈ after, s ∈ alphabet) (s : List Rune) :
    ToGlyph.newText alphabet after ((List.range s.length).map (window alphabet after s))
      = some ((List.range s.length).map (window alphabet after s)) := by
  rw [ToGlyph_newText_eq]
  congr 1
  apply List.ext_getElem
  · simp
  · intro i h1 h2
    have hi : i < s.length := by simpa using h2
    simp only [List.getElem_map, List.getElem_range, List.length_map, List.length_range]
    exact window_window hnc hsub s i hi

theorem chosen_glyph (alphabet after : List Harf) (pin nin : Bool) (p c : Rune) :
    chosen alphabet after pin nin p c = (getHarf alphabet c).Isolated ∨
    chosen alphabet after pin nin p c = (getHarf alphabet c).Beggining ∨
    chosen alphabet after pin nin p c = (getHarf alphabet c).Medium ∨
    chosen alphabet after pin nin p c = (getHarf alphabet c).Final := by
  unfold chosen
  split
  · split
    · exact Or.inr (Or.inl rfl)
    · exact Or.inr (Or.inr (Or.inl rfl))
  · split
    · exact Or.inr (Or.inl rfl)
    · split
      · split
        · exact Or.inl rfl
        · exact Or.inr (Or.inr (Or.inr rfl))
      · exact Or.inl rfl

theorem glyph_scalar {alphabet : List Harf} (hsc : ScalarGlyphs alphabet)
    (after : List Harf) (p c n : Rune) (hc : IsScalar c) :
    IsScalar (getCharGlyph alphabet after p c n) := by
  rw [getCharGlyph_eq]
  by_cases hcl : Classifies alphabet c
  · rw [if_pos hcl]
    have hL := hsc _ (getHarf_mem_equals alphabet c hcl).1
    rcases chosen_glyph alphabet after (decide (Classifies alphabet p))
      (decide (Classifies alphabet n)) p c with h | h | h | h
    · rw [h]; exact hL.1
    · rw [h]; exact hL.2.1
    · rw [h]; exact hL.2.2.1
    · rw [h]; exact hL.2.2.2
  · rw [if_neg hcl]
    exact hc

theorem shaped_isString {alphabet : List Harf} (hsc : ScalarGlyphs alphabet)
    (after : List Harf) (s : List Rune) (hs : IsString s) :
    IsString ((List.range s.length).map (window alphabet after s)) := by
  intro g hg
  obtain ⟨i, hi, hgi⟩ := List.mem_map.1 hg
  have hi2 : i < s.length := List.mem_range.1 hi
  rw [← hgi]
  unfold window
  apply glyph_scalar hsc
  rw [List.getElem?_eq_getElem hi2]
  exact hs _ (List.getElem_mem hi2)

end Gofarsi
